import Mathlib

/-!
Shallow embedding of the temporal-smoothing and aggregation core of the
`utility-stats` repository, together with proofs of the specification claims.

Conventions of the embedding:
* `f64` / `f32` values are modelled by exact rationals (`ℚ`); the IEEE NaN
  sentinel is modelled by `Option ℚ` (`none` = NaN) at the API boundary of the
  regression, mirroring the "undefined sentinel" contract of the spec.
* `chrono::Date<Utc>` values are modelled by their day number (an `Int`,
  days since the 1970-01-01 epoch); the source only ever uses dates through
  `signed_duration_since(..).num_days()`, `Duration::days` addition and
  ordering, all of which are exactly the integer operations.
* Stateful Rust methods become explicit state-passing functions; `panic!` and
  unguarded indexing become `Option`/`Except` results (`none` / `.error` =
  abort).
-/

namespace UtilityStats

/-! ## `src/rust/src/regression.rs` — `SimpleRegression` -/

/-- Embedding of `struct SimpleRegression` (regression.rs, lines 4-24).
All `f64` fields become `ℚ`, the `i64` count becomes `Int`. -/
structure SimpleRegression where
  sum_x : ℚ
  sum_xx : ℚ
  sum_y : ℚ
  sum_yy : ℚ
  sum_xy : ℚ
  n : Int
  x_bar : ℚ
  y_bar : ℚ
  has_intercept : Bool
  deriving Repr, DecidableEq

namespace SimpleRegression

/-- Embedding of `SimpleRegression::new` (regression.rs, lines 27-39). -/
def new : SimpleRegression :=
  { sum_x := 0, sum_xx := 0, sum_y := 0, sum_yy := 0, sum_xy := 0,
    n := 0, x_bar := 0, y_bar := 0, has_intercept := true }

/-- Embedding of `SimpleRegression::add_data` (regression.rs, lines 47-72), the
Chan-Golub-LeVeque updating formulas, transcribed branch for branch. -/
def add_data (r : SimpleRegression) (x y : ℚ) : SimpleRegression :=
  let r1 :=
    if r.n = 0 then
      { r with x_bar := x, y_bar := y }
    else if r.has_intercept then
      let fact1 : ℚ := 1 + (r.n : ℚ)
      let fact2 : ℚ := (r.n : ℚ) / (1 + (r.n : ℚ))
      let dx : ℚ := x - r.x_bar
      let dy : ℚ := y - r.y_bar
      { r with
        sum_xx := r.sum_xx + dx * dx * fact2,
        sum_yy := r.sum_yy + dy * dy * fact2,
        sum_xy := r.sum_xy + dx * dy * fact2,
        x_bar := r.x_bar + dx / fact1,
        y_bar := r.y_bar + dy / fact1 }
    else r
  let r2 :=
    if !r1.has_intercept then
      { r1 with
        sum_xx := r1.sum_xx + x * x,
        sum_yy := r1.sum_yy + y * y,
        sum_xy := r1.sum_xy + x * y }
    else r1
  { r2 with sum_x := r2.sum_x + x, sum_y := r2.sum_y + y, n := r2.n + 1 }

/-- Embedding of `SimpleRegression::get_slope` (regression.rs, lines 99-107).
The NaN sentinel becomes `none`.  The source guard
`self.sum_xx.abs() < 10f64 * f64::MIN` is modelled as `sum_xx = 0`: in exact
arithmetic a state with `sum_xx = 0` has `sum_xy = 0` as well, so the source
division `0.0 / 0.0` produces NaN there, and any nonzero exact `sum_xx`
produces a finite quotient. -/
def get_slope (r : SimpleRegression) : Option ℚ :=
  if r.n < 2 then
    none -- not enough data
  else if r.sum_xx = 0 then
    none -- not enough variation in x
  else
    some (r.sum_xy / r.sum_xx)

/-- Embedding of `SimpleRegression::get_intercept` (regression.rs, lines 112-118), applied
to an already-computed (non-NaN) slope value. -/
def get_intercept (r : SimpleRegression) (slope : ℚ) : ℚ :=
  if r.has_intercept then (r.sum_y - slope * r.sum_x) / (r.n : ℚ) else 0

/-- The intercept as the source computes it from the estimated slope; NaN
(modelled `none`) propagates from `get_slope`, exactly as
`(sum_y - NaN * sum_x) / n` is NaN in the source. -/
def intercept_result (r : SimpleRegression) : Option ℚ :=
  (r.get_slope).map r.get_intercept

/-- Embedding of `SimpleRegression::predict` (regression.rs, lines 82-89).  A NaN slope
makes the whole expression NaN in the source, hence the `Option.map`. -/
def predict (r : SimpleRegression) (x : ℚ) : Option ℚ :=
  (r.get_slope).map fun b1 =>
    if r.has_intercept then r.get_intercept b1 + b1 * x else b1 * x

end SimpleRegression

/-- Running the accumulator over a whole list of `(x, y)` observations:
a sequence of `add_data` calls starting from `new`. -/
def runRegression (pts : List (ℚ × ℚ)) : SimpleRegression :=
  pts.foldl (fun r p => r.add_data p.1 p.2) SimpleRegression.new

/-- Raw sum of the x values of a data set. -/
def sX (pts : List (ℚ × ℚ)) : ℚ := (pts.map Prod.fst).sum

/-- Raw sum of the y values of a data set. -/
def sY (pts : List (ℚ × ℚ)) : ℚ := (pts.map Prod.snd).sum

/-- Raw sum of squares of the x values of a data set. -/
def sXX (pts : List (ℚ × ℚ)) : ℚ := (pts.map (fun p => p.1 * p.1)).sum

/-- Raw sum of x·y products of a data set. -/
def sXY (pts : List (ℚ × ℚ)) : ℚ := (pts.map (fun p => p.1 * p.2)).sum

/-- Direct closed-form ordinary-least-squares slope over the raw data,
`(n·Σxy − Σx·Σy) / (n·Σx² − (Σx)²)` — the batch comparison object named by
the spec ("a direct closed-form OLS computation over the same data"). -/
def batchSlope (pts : List (ℚ × ℚ)) : ℚ :=
  ((pts.length : ℚ) * sXY pts - sX pts * sY pts) /
    ((pts.length : ℚ) * sXX pts - sX pts * sX pts)

/-- Direct closed-form ordinary-least-squares intercept over the raw data,
`(Σy − slope·Σx) / n` — the batch comparison object named by the spec. -/
def batchIntercept (pts : List (ℚ × ℚ)) : ℚ :=
  (sY pts - batchSlope pts * sX pts) / (pts.length : ℚ)

/-- The closed-form description of the accumulator state after a nonempty
sequence of `add_data` calls: the raw sums and count are the raw sums and
count of the data, the means are the true means, and the centered sums
`sum_xx` / `sum_xy` equal `Σx² − (Σx)²/n` and `Σxy − Σx·Σy/n`. -/
def StateSpec (pts : List (ℚ × ℚ)) (r : SimpleRegression) : Prop :=
  r.has_intercept = true ∧
  r.n = (pts.length : Int) ∧
  r.sum_x = sX pts ∧
  r.sum_y = sY pts ∧
  r.x_bar = sX pts / (pts.length : ℚ) ∧
  r.y_bar = sY pts / (pts.length : ℚ) ∧
  r.sum_xx = sXX pts - sX pts * sX pts / (pts.length : ℚ) ∧
  r.sum_xy = sXY pts - sX pts * sY pts / (pts.length : ℚ)

/-- The scaled x-variation `n·Σx² − (Σx)²` of a list of x values. -/
def xVariation (xs : List ℚ) : ℚ :=
  (xs.length : ℚ) * (xs.map (fun x => x * x)).sum - xs.sum * xs.sum

/-! ## `src/rust/src/grapher.rs` — `calc_temp_series` -/

/-- A measurement `(date, amount)` (measurement.rs): the `Date<Utc>` becomes
its day number (`Int`), the `f32` amount becomes `ℚ`. -/
abbrev Measurement := Int × ℚ

/-- The first unguarded cursor loop of `calc_temp_series` (grapher.rs,
lines 175-179): starting from `i`, advance while
`lower_bound - data[i].date > 0`.  The unguarded `data[i]` indexing is
modelled by returning `none` when `i` runs past the end (the Rust code would
panic there). -/
def advanceLower (data : List Measurement) (lb : Int) (i : Nat) : Option Nat :=
  if h : i < data.length then
    if lb - (data.get ⟨i, h⟩).1 > 0 then advanceLower data lb (i + 1) else some i
  else none
termination_by data.length - i

/-- The second loop of `calc_temp_series` (grapher.rs, lines 181-187): from
index `i`, while `i < data.len()` and `data[i].date - upper_bound ≤ 0`, feed
`(data[i].date - base_date, data[i].amount)` to the regression. -/
def collectWindow (data : List Measurement) (base ub : Int) (i : Nat)
    (r : SimpleRegression) : SimpleRegression :=
  if h : i < data.length then
    if (data.get ⟨i, h⟩).1 - ub ≤ 0 then
      collectWindow data base ub (i + 1)
        (r.add_data ((((data.get ⟨i, h⟩).1 - base : Int)) : ℚ) (data.get ⟨i, h⟩).2)
    else r
  else r
termination_by data.length - i

/-- The per-measurement body of `calc_temp_series` (grapher.rs, lines
169-194), iterated over the remaining measurements, threading the
`lower_init` cursor.  Each iteration computes
`lower_bound = date - num_days/2` and `upper_bound = date + (num_days-1)/2`
(`i64` division; `Nat` division and truncated subtraction agree with it for
every `u8` value of `num_days`), advances the cursor, accumulates the window
into a fresh regression, and records `(date, predict(date - base_date))`. -/
def smoothLoop (data : List Measurement) (base : Int) (num_days : Nat) :
    List Measurement → Nat → Option (List Int × List (Option ℚ))
  | [], _ => some ([], [])
  | m :: ms, lower_init =>
    let lower_bound : Int := m.1 - ((num_days / 2 : Nat) : Int)
    let upper_bound : Int := m.1 + (((num_days - 1) / 2 : Nat) : Int)
    match advanceLower data lower_bound lower_init with
    | none => none
    | some j =>
      let r := collectWindow data base upper_bound j SimpleRegression.new
      match smoothLoop data base num_days ms j with
      | none => none
      | some (dates, amounts) =>
        some (m.1 :: dates, r.predict (((m.1 - base : Int)) : ℚ) :: amounts)

/-- Embedding of `calc_temp_series` (grapher.rs, lines 162-197).  `base_date` is the
minimum date (`min().unwrap()` panics on an empty series, hence `none`);
the result pairs the pushed dates with the pushed smoothed amounts, `none`
standing for a NaN (`f32`) prediction. -/
def calc_temp_series (data : List Measurement) (num_days : Nat) :
    Option (List Int × List (Option ℚ)) :=
  match (data.map Prod.fst).min? with
  | none => none
  | some base => smoothLoop data base num_days data 0

/-- The successive values taken by the `lower_init` cursor of
`calc_temp_series`, one per processed measurement (grapher.rs, lines
163-179): exactly the cursor updates of `smoothLoop`, with the window
accumulation and output dropped. -/
def cursorSteps (data : List Measurement) (num_days : Nat) :
    List Measurement → Nat → Option (List Nat)
  | [], _ => some []
  | m :: ms, lower_init =>
    let lower_bound : Int := m.1 - ((num_days / 2 : Nat) : Int)
    match advanceLower data lower_bound lower_init with
    | none => none
    | some j => (cursorSteps data num_days ms j).map fun tr => j :: tr

/-- The observations of the series whose date lies in the calendar window
`[d - floor(W/2), d + floor((W-1)/2)]` — the window as the spec defines it,
used as the comparison object for the window-selection claims. -/
def windowObs (data : List Measurement) (W : Nat) (d : Int) : List Measurement :=
  data.filter fun p =>
    decide (d - ((W / 2 : Nat) : Int) ≤ p.1) &&
      decide (p.1 ≤ d + (((W - 1) / 2 : Nat) : Int))

/-- The regression the spec prescribes for target date `d`: a fresh
accumulator fed every observation in the calendar window of `d`, with
x-coordinates expressed as day-offsets from `base`. -/
def windowRegression (data : List Measurement) (base : Int) (W : Nat)
    (d : Int) : SimpleRegression :=
  (windowObs data W d).foldl
    (fun r p => r.add_data (((p.1 - base : Int)) : ℚ) p.2) SimpleRegression.new

/-- The input-series precondition: measurements are sorted by date. -/
def DateSorted (data : List Measurement) : Prop :=
  List.Pairwise (fun p q => p.1 ≤ q.1) data

/-- The sublist of `data` actually consumed by the second loop when it starts
at index `i`: the longest prefix of `data.drop i` whose dates do not exceed
the upper bound. -/
def windowList (data : List Measurement) (ub : Int) (i : Nat) : List Measurement :=
  (data.drop i).takeWhile fun p => decide (p.1 - ub ≤ 0)

/-- A concrete dense daily series (dates 10..14), used by witnesses. -/
def denseSeries5 : List Measurement := [(10, 0), (11, 1), (12, 4), (13, 9), (14, 16)]

/-! ## `src/src/tmpmgr.rs`, `src/src/darksky.rs`, `src/src/client/open_meteo.rs`
— date ranges, caching, and the provider guard -/

/-- Embedding of `struct Temp` (tmpmgr.rs, lines 132-137 / weatherclient.rs): one day's
canonical temperature summary, `f32` fields as `ℚ`. -/
structure Temp where
  min : ℚ
  mean : ℚ
  max : ℚ
  deriving Repr, DecidableEq

/-- Embedding of `TempDataManager::date_range` (tmpmgr.rs, lines 24-30): for
`i in 0..(end_date - start_date).num_days()`, push `start_date + i` days.
A non-positive day count yields the empty range, as the Rust `0..n` loop
does. -/
def date_range (start_date end_date : Int) : List Int :=
  (List.range (end_date - start_date).toNat).map
    (fun i : Nat => (start_date + (i : Int) : Int))

/-- The mutable state of `TempDataManager` (tmpmgr.rs, lines 9-12): the
in-memory per-date `HashMap` cache as an association list, together with the
log of dates for which `fetch_data` consulted the underlying client (the
observable needed to state the at-most-one-fetch property). -/
structure TempDataManager where
  cache : List (Int × Option Temp)
  fetchLog : List Int
  deriving Repr, DecidableEq

/-- The date guard shared by `DarkSkyClient::get_history` (darksky.rs, lines
179-195) and `OpenMeteoClient::get_history` (client/open_meteo.rs, lines
117-133), as seen by `TempDataManager::fetch_data`: `panic!` (modelled
`Except.error`) when the date is today or in the future, otherwise the
provider's aggregated answer for the date, modelled by the abstract
`history` function. -/
def get_history_guarded (today : Int) (history : Int → Option Temp)
    (date : Int) : Except String (Option Temp) :=
  if date - today = 0 then Except.error "Cannot get history for today"
  else if date - today > 0 then Except.error "Cannot get history for the future"
  else Except.ok (history date)

/-- Embedding of `TempDataManager::get_temp` (tmpmgr.rs, lines 33-39): if the cache does
not contain the date, `fetch_data` is invoked (one `get_history` call,
recorded in `fetchLog`) and its result inserted; the cached entry is then
returned (`unwrap` modelled by `Option.getD`, which the theorems show never
hits its default). -/
def get_temp (today : Int) (history : Int → Option Temp)
    (mgr : TempDataManager) (date : Int) :
    Except String (Option Temp × TempDataManager) :=
  if (mgr.cache.lookup date).isSome then
    Except.ok ((mgr.cache.lookup date).getD none, mgr)
  else
    match get_history_guarded today history date with
    | Except.error e => Except.error e
    | Except.ok temp =>
      let mgr' : TempDataManager :=
        { cache := (date, temp) :: mgr.cache, fetchLog := date :: mgr.fetchLog }
      Except.ok ((mgr'.cache.lookup date).getD none, mgr')

/-- The observable provider-side state of a weather client (darksky.rs /
client/open_meteo.rs): the persistent response cache (SQLite table) as an
association list keyed by day number, plus logs of cache reads, live API
calls, and cache writes. -/
structure ClientState (α : Type) where
  store : List (Int × α)
  readLog : List Int
  apiLog : List Int
  writeLog : List Int
  deriving Repr, DecidableEq

/-- The fetch part of `get_history`, identical in `DarkSkyClient`
(darksky.rs, lines 179-195) and `OpenMeteoClient` (client/open_meteo.rs,
lines 117-133): compare `date - today` with 0 — `panic!` for today and for
the future (modelled `Except.error`, returning the state untouched);
for a past date, read the cache and on a miss call the live API and write
the response through. -/
def get_history_fetch {α : Type} (today : Int) (api : Int → α)
    (st : ClientState α) (date : Int) :
    Except String α × ClientState α :=
  let delta := date - today
  if delta = 0 then (Except.error "Cannot get history for today", st)
  else if delta > 0 then (Except.error "Cannot get history for the future", st)
  else
    let st1 := { st with readLog := date :: st.readLog }
    match st1.store.lookup date with
    | some resp => (Except.ok resp, st1)
    | none =>
      let resp := api date
      (Except.ok resp,
        { st1 with
          apiLog := date :: st1.apiLog,
          store := (date, resp) :: st1.store,
          writeLog := date :: st1.writeLog })

/-- Modelled from the spec: the multi-provider combination step of the
SourceAggregator (spec, section 4.3).  The source under `src/` never holds
more than one provider — `main.rs` (lines 84-96) selects a single
`WeatherClient` and `TempDataManager::new` (tmpmgr.rs, lines 14-21) stores
exactly that client — so the combination of several per-provider `Temp`
values is modelled from the spec's words: canonical `min` is the minimum of
all mins, canonical `max` the maximum of all maxes, canonical `mean` the
unweighted arithmetic mean of the per-provider means; no provider data gives
"no data". -/
def combine_temps (ts : List Temp) : Option Temp :=
  match ts with
  | [] => none
  | t :: rest =>
    let folded := rest.foldl
      (fun acc u =>
        { min := min acc.min u.min,
          mean := acc.mean + u.mean,
          max := max acc.max u.max }) t
    some { folded with mean := folded.mean / ((t :: rest).length : ℚ) }

@[simp] lemma sX_nil : sX [] = 0 := rfl
@[simp] lemma sY_nil : sY [] = 0 := rfl
@[simp] lemma sXX_nil : sXX [] = 0 := rfl
@[simp] lemma sXY_nil : sXY [] = 0 := rfl

@[simp] lemma sX_append (l l' : List (ℚ × ℚ)) : sX (l ++ l') = sX l + sX l' := by
  simp [sX]

@[simp] lemma sY_append (l l' : List (ℚ × ℚ)) : sY (l ++ l') = sY l + sY l' := by
  simp [sY]

@[simp] lemma sXX_append (l l' : List (ℚ × ℚ)) : sXX (l ++ l') = sXX l + sXX l' := by
  simp [sXX]

@[simp] lemma sXY_append (l l' : List (ℚ × ℚ)) : sXY (l ++ l') = sXY l + sXY l' := by
  simp [sXY]

@[simp] lemma sX_singleton (p : ℚ × ℚ) : sX [p] = p.1 := by simp [sX]
@[simp] lemma sY_singleton (p : ℚ × ℚ) : sY [p] = p.2 := by simp [sY]
@[simp] lemma sXX_singleton (p : ℚ × ℚ) : sXX [p] = p.1 * p.1 := by simp [sXX]
@[simp] lemma sXY_singleton (p : ℚ × ℚ) : sXY [p] = p.1 * p.2 := by simp [sXY]

lemma runRegression_append (l l' : List (ℚ × ℚ)) :
    runRegression (l ++ l') = l'.foldl (fun r p => r.add_data p.1 p.2) (runRegression l) := by
  simp [runRegression, List.foldl_append]

lemma stateSpec_singleton (p : ℚ × ℚ) :
    StateSpec [p] (runRegression [p]) := by
  simp only [runRegression, List.foldl_cons, List.foldl_nil]
  simp [StateSpec, SimpleRegression.add_data, SimpleRegression.new]

lemma stateSpec_snoc (l : List (ℚ × ℚ)) (p : ℚ × ℚ) (hne : l ≠ [])
    (ih : StateSpec l (runRegression l)) :
    StateSpec (l ++ [p]) (runRegression (l ++ [p])) := by
  obtain ⟨hint, hn, hsx, hsy, hxb, hyb, hxx, hxy⟩ := ih
  have hlen : (0 : ℚ) < (l.length : ℚ) := by
    have : 0 < l.length := List.length_pos.mpr hne
    exact_mod_cast this
  have hlen0 : (l.length : ℚ) ≠ 0 := ne_of_gt hlen
  have hlen1 : (1 : ℚ) + (l.length : ℚ) ≠ 0 := by positivity
  have hrn : (runRegression l).n ≠ 0 := by
    rw [hn]
    have : 0 < l.length := List.length_pos.mpr hne
    simp only [ne_eq, Int.natCast_eq_zero]
    omega
  rw [runRegression_append]
  simp only [List.foldl_cons, List.foldl_nil]
  unfold SimpleRegression.add_data
  rw [if_neg hrn, if_pos hint]
  simp only [hint, Bool.not_true, Bool.false_eq_true, if_false]
  unfold StateSpec
  refine ⟨rfl, ?_, ?_, ?_, ?_, ?_, ?_, ?_⟩ <;>
    simp only [hn, hsx, hsy, hxb, hyb, hxx, hxy, List.length_append,
      List.length_singleton, sX_append, sY_append, sXX_append, sXY_append,
      sX_singleton, sY_singleton, sXX_singleton, sXY_singleton, Nat.cast_add,
      Nat.cast_one, Int.natCast_add, Int.natCast_one] <;>
    push_cast <;>
    field_simp <;>
    ring

/-- Main closed-form lemma: after any nonempty sequence of `add_data` calls
the accumulator state is exactly the batch sufficient statistics. -/
lemma stateSpec_run (pts : List (ℚ × ℚ)) (hne : pts ≠ []) :
    StateSpec pts (runRegression pts) := by
  induction pts using List.reverseRecOn with
  | nil => cases hne rfl
  | append_singleton l p ih =>
    rcases eq_or_ne l [] with rfl | hl
    · simpa using stateSpec_singleton p
    · exact stateSpec_snoc l p hl (ih hl)

lemma xVariation_cons (x : ℚ) (xs : List ℚ) :
    xVariation (x :: xs) = xVariation xs + (xs.map (fun t => (t - x) ^ 2)).sum := by
  unfold xVariation
  induction xs with
  | nil => simp
  | cons y ys ih =>
    simp only [List.map_cons, List.sum_cons, List.length_cons, Nat.cast_add,
      Nat.cast_one] at ih ⊢
    nlinarith [ih]

lemma sq_sum_nonneg (x : ℚ) (xs : List ℚ) :
    0 ≤ (xs.map (fun t => (t - x) ^ 2)).sum := by
  induction xs with
  | nil => simp
  | cons y ys ih =>
    simp only [List.map_cons, List.sum_cons]
    nlinarith [sq_nonneg (y - x)]

lemma xVariation_nonneg (xs : List ℚ) : 0 ≤ xVariation xs := by
  induction xs with
  | nil => simp [xVariation]
  | cons x ys ih =>
    rw [xVariation_cons]
    have := sq_sum_nonneg x ys
    linarith

lemma sq_sum_pos_of_mem (x b : ℚ) (xs : List ℚ) (hb : b ∈ xs) (hne : b ≠ x) :
    0 < (xs.map (fun t => (t - x) ^ 2)).sum := by
  have hmem : (b - x) ^ 2 ∈ xs.map (fun t => (t - x) ^ 2) :=
    List.mem_map_of_mem _ hb
  have hle : (b - x) ^ 2 ≤ (xs.map (fun t => (t - x) ^ 2)).sum := by
    apply List.single_le_sum _ _ hmem
    intro q hq
    obtain ⟨t, _, rfl⟩ := List.mem_map.mp hq
    positivity
  have hpos : 0 < (b - x) ^ 2 := by
    have : b - x ≠ 0 := sub_ne_zero.mpr hne
    positivity
  linarith

/-- Two distinct values in the list force strictly positive x-variation:
`n·Σx² − (Σx)² > 0`. -/
lemma xVariation_pos (xs : List ℚ) (a b : ℚ) (ha : a ∈ xs) (hb : b ∈ xs)
    (hab : a ≠ b) : 0 < xVariation xs := by
  induction xs with
  | nil => cases ha
  | cons x ys ih =>
    rw [xVariation_cons]
    rcases List.mem_cons.mp ha with rfl | ha' <;>
      rcases List.mem_cons.mp hb with hb0 | hb'
    · exact absurd hb0.symm hab
    · have := sq_sum_pos_of_mem a b ys hb' (fun h => hab h.symm)
      have := xVariation_nonneg ys
      linarith
    · subst hb0
      have := sq_sum_pos_of_mem b a ys ha' hab
      have := xVariation_nonneg ys
      linarith
    · have := ih ha' hb'
      have := sq_sum_nonneg x ys
      linarith

lemma sXX_eq (pts : List (ℚ × ℚ)) :
    sXX pts = ((pts.map Prod.fst).map (fun x => x * x)).sum := by
  simp only [sXX, List.map_map]
  rfl

lemma two_le_length_of_distinct {pts : List (ℚ × ℚ)} {p q : ℚ × ℚ}
    (hp : p ∈ pts) (hq : q ∈ pts) (hne : p.1 ≠ q.1) : 2 ≤ pts.length := by
  match pts with
  | [] => cases hp
  | [r] =>
    rw [List.mem_singleton] at hp hq
    subst hp; subst hq
    exact absurd rfl hne
  | r :: s :: t => simp [Nat.succ_le_succ, Nat.le_add_left]

lemma sum_xx_pos (pts : List (ℚ × ℚ)) (p q : ℚ × ℚ) (hp : p ∈ pts)
    (hq : q ∈ pts) (hne : p.1 ≠ q.1) :
    0 < (runRegression pts).sum_xx := by
  have hnil : pts ≠ [] := by rintro rfl; cases hp
  obtain ⟨-, -, -, -, -, -, hxx, -⟩ := stateSpec_run pts hnil
  have hlen : (0 : ℚ) < (pts.length : ℚ) := by
    have : 0 < pts.length := List.length_pos.mpr hnil
    exact_mod_cast this
  have hvar : 0 < xVariation (pts.map Prod.fst) :=
    xVariation_pos (pts.map Prod.fst) p.1 q.1
      (List.mem_map_of_mem _ hp) (List.mem_map_of_mem _ hq) hne
  rw [hxx]
  rw [xVariation, List.length_map] at hvar
  rw [← sXX_eq] at hvar
  have hsx : (pts.map Prod.fst).sum = sX pts := rfl
  rw [hsx] at hvar
  rw [sub_pos, div_lt_iff₀ hlen]
  nlinarith

lemma get_slope_eq_batch (pts : List (ℚ × ℚ)) (p q : ℚ × ℚ) (hp : p ∈ pts)
    (hq : q ∈ pts) (hne : p.1 ≠ q.1) :
    (runRegression pts).get_slope = some (batchSlope pts) := by
  have hnil : pts ≠ [] := by rintro rfl; cases hp
  have hlen2 : 2 ≤ pts.length := two_le_length_of_distinct hp hq hne
  obtain ⟨hint, hn, hsx, hsy, hxb, hyb, hxx, hxy⟩ := stateSpec_run pts hnil
  have hpos := sum_xx_pos pts p q hp hq hne
  have hlen : (0 : ℚ) < (pts.length : ℚ) := by
    have : 0 < pts.length := List.length_pos.mpr hnil
    exact_mod_cast this
  unfold SimpleRegression.get_slope
  rw [if_neg, if_neg (ne_of_gt hpos)]
  · congr 1
    rw [hxx, hxy]
    have hvar : (0 : ℚ) < (pts.length : ℚ) * sXX pts - sX pts * sX pts := by
      have := hpos
      rw [hxx, sub_pos, div_lt_iff₀ hlen] at this
      nlinarith
    unfold batchSlope
    rw [div_eq_div_iff]
    · field_simp
      ring
    · rw [← hxx]
      exact ne_of_gt hpos
    · exact ne_of_gt hvar
  · rw [hn]
    simp only [not_lt]
    exact_mod_cast hlen2

/-- C1: for every sequence of `add(x, y)` calls containing at least two
distinct x values, the slope and intercept computed by the incremental
accumulator (Chan-Golub-LeVeque updates) equal the direct closed-form
ordinary-least-squares slope and intercept over the same data (exactly, in
the exact-arithmetic model of `f64`). -/
theorem incremental_matches_batch (pts : List (ℚ × ℚ))
    (h : ∃ p ∈ pts, ∃ q ∈ pts, p.1 ≠ q.1) :
    (runRegression pts).get_slope = some (batchSlope pts) ∧
    (runRegression pts).intercept_result = some (batchIntercept pts) := by
  obtain ⟨p, hp, q, hq, hne⟩ := h
  have hnil : pts ≠ [] := by rintro rfl; cases hp
  obtain ⟨hint, hn, hsx, hsy, -, -, -, -⟩ := stateSpec_run pts hnil
  have hslope := get_slope_eq_batch pts p q hp hq hne
  refine ⟨hslope, ?_⟩
  unfold SimpleRegression.intercept_result
  rw [hslope, Option.map_some']
  congr 1
  unfold SimpleRegression.get_intercept
  rw [if_pos hint, hsx, hsy, hn]
  unfold batchIntercept
  push_cast
  rfl

/-- Witness for C1 on the concrete data set [(0,1), (2,5)]. -/
theorem incremental_matches_batch_witness :
    (∃ p ∈ [((0 : ℚ), (1 : ℚ)), (2, 5)], ∃ q ∈ [((0 : ℚ), (1 : ℚ)), (2, 5)],
        p.1 ≠ q.1) ∧
    ((runRegression [((0 : ℚ), (1 : ℚ)), (2, 5)]).get_slope =
        some (batchSlope [((0 : ℚ), (1 : ℚ)), (2, 5)]) ∧
      (runRegression [((0 : ℚ), (1 : ℚ)), (2, 5)]).intercept_result =
        some (batchIntercept [((0 : ℚ), (1 : ℚ)), (2, 5)])) :=
  ⟨by decide, incremental_matches_batch _ (by decide)⟩

lemma sX_const (pts : List (ℚ × ℚ)) (c : ℚ) (hc : ∀ p ∈ pts, p.1 = c) :
    sX pts = (pts.length : ℚ) * c := by
  induction pts with
  | nil => simp
  | cons r t ih =>
    have hr := hc r (List.mem_cons_self r t)
    have ht := ih (fun p hp => hc p (List.mem_cons_of_mem r hp))
    simp only [sX, List.map_cons, List.sum_cons, List.length_cons] at ht ⊢
    rw [hr, ht]
    push_cast
    ring

lemma sXX_const (pts : List (ℚ × ℚ)) (c : ℚ) (hc : ∀ p ∈ pts, p.1 = c) :
    sXX pts = (pts.length : ℚ) * (c * c) := by
  induction pts with
  | nil => simp
  | cons r t ih =>
    have hr := hc r (List.mem_cons_self r t)
    have ht := ih (fun p hp => hc p (List.mem_cons_of_mem r hp))
    simp only [sXX, List.map_cons, List.sum_cons, List.length_cons] at ht ⊢
    rw [hr, ht]
    push_cast
    ring

lemma sum_xx_eq_zero_of_const (pts : List (ℚ × ℚ)) (c : ℚ)
    (hc : ∀ p ∈ pts, p.1 = c) : (runRegression pts).sum_xx = 0 := by
  rcases eq_or_ne pts [] with rfl | hnil
  · rfl
  obtain ⟨-, -, -, -, -, -, hxx, -⟩ := stateSpec_run pts hnil
  have hlen : (0 : ℚ) < (pts.length : ℚ) := by
    have : 0 < pts.length := List.length_pos.mpr hnil
    exact_mod_cast this
  rw [hxx, sX_const pts c hc, sXX_const pts c hc]
  field_simp
  ring

/-- C5: with fewer than 2 observations, or with all observations sharing one
x value (so that the centered `Sxx` is exactly zero), `slope()` returns the
"undefined" sentinel (`none`, modelling NaN) rather than an error, the
intercept computed from it is the sentinel too, and `predict(x)` propagates
the sentinel unchanged for every x. -/
theorem undefined_sentinel_propagates (pts : List (ℚ × ℚ))
    (h : pts.length < 2 ∨ ∃ c, ∀ p ∈ pts, p.1 = c) :
    (runRegression pts).get_slope = none ∧
    (runRegression pts).intercept_result = none ∧
    ∀ x : ℚ, (runRegression pts).predict x = none := by
  have hslope : (runRegression pts).get_slope = none := by
    unfold SimpleRegression.get_slope
    rcases h with hlt | ⟨c, hc⟩
    · rw [if_pos]
      have hn : (runRegression pts).n = (pts.length : Int) := by
        rcases eq_or_ne pts [] with rfl | hnil
        · rfl
        · exact (stateSpec_run pts hnil).2.1
      rw [hn]
      exact_mod_cast hlt
    · rcases lt_or_le (runRegression pts).n 2 with hlt | hge
      · rw [if_pos hlt]
      · rw [if_neg (not_lt.mpr hge), if_pos (sum_xx_eq_zero_of_const pts c hc)]
  refine ⟨hslope, ?_, ?_⟩
  · unfold SimpleRegression.intercept_result
    rw [hslope]
    rfl
  · intro x
    unfold SimpleRegression.predict
    rw [hslope]
    rfl

/-- Witness for C5 on the concrete data set [(1,2), (1,5)] (two observations
sharing the x value 1). -/
theorem undefined_sentinel_propagates_witness :
    (([((1 : ℚ), (2 : ℚ)), (1, 5)] : List (ℚ × ℚ)).length < 2 ∨
        ∃ c, ∀ p ∈ [((1 : ℚ), (2 : ℚ)), (1, 5)], p.1 = c) ∧
    ((runRegression [((1 : ℚ), (2 : ℚ)), (1, 5)]).get_slope = none ∧
      (runRegression [((1 : ℚ), (2 : ℚ)), (1, 5)]).intercept_result = none ∧
      ∀ x : ℚ, (runRegression [((1 : ℚ), (2 : ℚ)), (1, 5)]).predict x = none) :=
  ⟨Or.inr ⟨1, by decide⟩,
    undefined_sentinel_propagates _ (Or.inr ⟨1, by decide⟩)⟩

lemma advanceLower_ge (data : List Measurement) (lb : Int) :
    ∀ i j, advanceLower data lb i = some j → i ≤ j := by
  intro i
  induction i using advanceLower.induct data lb with
  | case1 x hx hlt ih =>
    intro j h
    unfold advanceLower at h
    rw [dif_pos hx, if_pos hlt] at h
    exact le_trans (Nat.le_succ x) (ih j h)
  | case2 x hx hlt =>
    intro j h
    unfold advanceLower at h
    rw [dif_pos hx, if_neg hlt] at h
    cases h
    exact le_refl x
  | case3 x hx =>
    intro j h
    unfold advanceLower at h
    rw [dif_neg hx] at h
    cases h

lemma advanceLower_spec (data : List Measurement) (lb : Int) :
    ∀ i j, advanceLower data lb i = some j →
      j < data.length ∧
      (∀ hj : j < data.length, lb ≤ (data.get ⟨j, hj⟩).1) ∧
      (∀ k (hk : k < data.length), i ≤ k → k < j → (data.get ⟨k, hk⟩).1 < lb) := by
  intro i
  induction i using advanceLower.induct data lb with
  | case1 x hx hlt ih =>
    intro j h
    unfold advanceLower at h
    rw [dif_pos hx, if_pos hlt] at h
    obtain ⟨h1, h2, h3⟩ := ih j h
    refine ⟨h1, h2, ?_⟩
    intro k hk hxk hkj
    rcases Nat.eq_or_lt_of_le hxk with heq | hlt'
    · subst heq
      exact Int.sub_pos.mp hlt
    · exact h3 k hk hlt' hkj
  | case2 x hx hlt =>
    intro j h
    unfold advanceLower at h
    rw [dif_pos hx, if_neg hlt] at h
    cases h
    refine ⟨hx, ?_, ?_⟩
    · intro hj
      omega
    · intro k hk hxk hkx
      omega
  | case3 x hx =>
    intro j h
    unfold advanceLower at h
    rw [dif_neg hx] at h
    cases h

lemma advanceLower_some (data : List Measurement) (lb : Int) :
    ∀ i, ∀ t (ht : t < data.length), i ≤ t → lb ≤ (data.get ⟨t, ht⟩).1 →
      ∃ j, advanceLower data lb i = some j ∧ j ≤ t := by
  intro i
  induction i using advanceLower.induct data lb with
  | case1 x hx hlt ih =>
    intro t ht hxt hstop
    have hxne : x ≠ t := by
      rintro rfl
      have : lb ≤ (data.get ⟨x, hx⟩).1 := hstop
      omega
    obtain ⟨j, hj, hjt⟩ := ih t ht (by omega) hstop
    refine ⟨j, ?_, hjt⟩
    unfold advanceLower
    rw [dif_pos hx, if_pos hlt]
    exact hj
  | case2 x hx hlt =>
    intro t ht hxt hstop
    refine ⟨x, ?_, hxt⟩
    unfold advanceLower
    rw [dif_pos hx, if_neg hlt]
  | case3 x hx =>
    intro t ht hxt hstop
    omega

lemma collectWindow_eq_fold (data : List Measurement) (base ub : Int) :
    ∀ i r, collectWindow data base ub i r =
      (windowList data ub i).foldl
        (fun r p => r.add_data (((p.1 - base : Int)) : ℚ) p.2) r := by
  intro i r
  induction i, r using collectWindow.induct data base ub with
  | case1 x r hx hle ih =>
    have hwl : windowList data ub x =
        data.get ⟨x, hx⟩ :: windowList data ub (x + 1) := by
      unfold windowList
      rw [List.drop_eq_getElem_cons hx]
      simp only [List.takeWhile_cons, decide_eq_true_eq]
      rw [if_pos (by simpa using hle)]
      rfl
    unfold collectWindow
    rw [dif_pos hx, if_pos hle, ih, hwl, List.foldl_cons]
  | case2 x r hx hle =>
    have hwl : windowList data ub x = [] := by
      unfold windowList
      rw [List.drop_eq_getElem_cons hx]
      simp only [List.takeWhile_cons, decide_eq_true_eq]
      rw [if_neg (by simpa using hle)]
    unfold collectWindow
    rw [dif_pos hx, if_neg hle, hwl, List.foldl_nil]
  | case3 x r hx =>
    have hwl : windowList data ub x = [] := by
      unfold windowList
      rw [List.drop_of_length_le (by omega)]
      rfl
    unfold collectWindow
    rw [dif_neg hx, hwl, List.foldl_nil]

lemma takeWhile_ext (p q : Measurement → Bool) :
    ∀ l : List Measurement, (∀ a ∈ l, p a = q a) →
      l.takeWhile p = l.takeWhile q := by
  intro l
  induction l with
  | nil => intro _; rfl
  | cons a t ih =>
    intro h
    have ha := h a (List.mem_cons_self a t)
    simp only [List.takeWhile_cons, ha]
    by_cases hq : q a = true
    · rw [if_pos hq, if_pos hq, ih (fun b hb => h b (List.mem_cons_of_mem a hb))]
    · rw [if_neg hq, if_neg hq]

lemma filter_le_eq_takeWhile (ub : Int) :
    ∀ l : List Measurement, List.Pairwise (fun p q => p.1 ≤ q.1) l →
      l.filter (fun p => decide (p.1 ≤ ub)) =
        l.takeWhile (fun p => decide (p.1 ≤ ub)) := by
  intro l
  induction l with
  | nil => intro _; rfl
  | cons a t ih =>
    intro hs
    rw [List.pairwise_cons] at hs
    obtain ⟨ha, ht⟩ := hs
    by_cases hle : a.1 ≤ ub
    · rw [List.filter_cons_of_pos (by simpa using hle),
        List.takeWhile_cons, if_pos (by simpa using hle), ih ht]
    · rw [List.filter_cons_of_neg (by simpa using hle),
        List.takeWhile_cons, if_neg (by simpa using hle)]
      apply List.filter_eq_nil_iff.mpr
      intro b hb
      have := ha b hb
      simp only [decide_eq_true_eq]
      omega

/-- Under sortedness, when the cursor has stopped at the first index `j` whose
date reaches the lower bound, the contiguous block consumed by the second
loop is exactly the set of observations inside the calendar window. -/
lemma windowList_eq_windowObs (data : List Measurement) (W : Nat) (d : Int)
    (hs : DateSorted data) (j : Nat) (hjlen : j ≤ data.length)
    (hlow : ∀ k (hk : k < data.length), k < j →
      (data.get ⟨k, hk⟩).1 < d - ((W / 2 : Nat) : Int))
    (hge : ∀ hj : j < data.length,
      d - ((W / 2 : Nat) : Int) ≤ (data.get ⟨j, hj⟩).1) :
    windowList data (d + (((W - 1) / 2 : Nat) : Int)) j = windowObs data W d := by
  set lb : Int := d - ((W / 2 : Nat) : Int) with hlb
  set ub : Int := d + (((W - 1) / 2 : Nat) : Int) with hub
  have hdropSorted : List.Pairwise (fun p q : Measurement => p.1 ≤ q.1)
      (data.drop j) := List.Pairwise.sublist (List.drop_sublist j data) hs
  have hdropGe : ∀ p ∈ data.drop j, lb ≤ p.1 := by
    intro p hp
    obtain ⟨m, hm, hpm⟩ := List.getElem_of_mem hp
    rw [List.getElem_drop] at hpm
    have hjm : j + m < data.length := by
      have := hm
      simp only [List.length_drop] at this
      omega
    have hj : j < data.length := by omega
    have h1 : lb ≤ (data.get ⟨j, hj⟩).1 := hge hj
    have h2 : (data.get ⟨j, hj⟩).1 ≤ (data.get ⟨j + m, hjm⟩).1 := by
      rcases Nat.eq_or_lt_of_le (Nat.le_add_right j m) with heq | hlt
      · simp only [← heq, le_refl]
      · exact List.pairwise_iff_get.mp hs ⟨j, hj⟩ ⟨j + m, hjm⟩ hlt
    subst hpm
    simp only [List.get_eq_getElem] at h1 h2
    omega
  have htake : (data.take j).filter
      (fun p => decide (lb ≤ p.1) && decide (p.1 ≤ ub)) = [] := by
    apply List.filter_eq_nil_iff.mpr
    intro p hp
    obtain ⟨m, hm, hpm⟩ := List.getElem_of_mem hp
    have hmlen : m < data.length := by
      have := hm
      simp only [List.length_take] at this
      omega
    have hmj : m < j := by
      have := hm
      simp only [List.length_take] at this
      omega
    rw [List.getElem_take] at hpm
    have := hlow m hmlen hmj
    subst hpm
    simp only [List.get_eq_getElem] at this
    simp only [Bool.and_eq_true, decide_eq_true_eq, not_and]
    intro hcontra
    omega
  have hdrop : (data.drop j).filter
      (fun p => decide (lb ≤ p.1) && decide (p.1 ≤ ub)) =
      (data.drop j).takeWhile (fun p => decide (p.1 - ub ≤ 0)) := by
    have h1 : (data.drop j).filter
        (fun p => decide (lb ≤ p.1) && decide (p.1 ≤ ub)) =
        (data.drop j).filter (fun p => decide (p.1 ≤ ub)) := by
      apply List.filter_congr
      intro p hp
      have hlbp : decide (lb ≤ p.1) = true := decide_eq_true (hdropGe p hp)
      rw [hlbp, Bool.true_and]
    rw [h1, filter_le_eq_takeWhile ub _ hdropSorted]
    apply takeWhile_ext
    intro p _
    simp only [decide_eq_decide]
    omega
  unfold windowList windowObs
  conv_rhs => rw [← List.take_append_drop j data]
  rw [List.filter_append, ← hlb, ← hub, htake, hdrop, List.nil_append]

/-- Master invariant of the smoothing pass: for a date-sorted series, the
loop starting at position `t` with a cursor `li ≤ t` that has only skipped
observations strictly below the current window succeeds, reproduces the
remaining dates, and smooths every remaining measurement with exactly the
regression over its calendar window. -/
lemma smoothLoop_spec (data : List Measurement) (hs : DateSorted data)
    (base : Int) (W : Nat) :
    ∀ n t li, data.length - t = n → li ≤ t →
      (∀ k (hk : k < data.length), k < li →
        ∀ ht : t < data.length,
          (data.get ⟨k, hk⟩).1 < (data.get ⟨t, ht⟩).1 - ((W / 2 : Nat) : Int)) →
      smoothLoop data base W (data.drop t) li =
        some ((data.drop t).map Prod.fst,
          (data.drop t).map fun m =>
            (windowRegression data base W m.1).predict (((m.1 - base : Int)) : ℚ)) := by
  intro n
  induction n with
  | zero =>
    intro t li hn _ _
    rw [List.drop_of_length_le (by omega)]
    rfl
  | succ n ih =>
    intro t li hn hli hinv
    have htlen : t < data.length := by omega
    have hdrop : data.drop t = data.get ⟨t, htlen⟩ :: data.drop (t + 1) :=
      List.drop_eq_getElem_cons htlen
    set m : Measurement := data.get ⟨t, htlen⟩ with hm
    have hstop : m.1 - ((W / 2 : Nat) : Int) ≤ (data.get ⟨t, htlen⟩).1 := by
      rw [← hm]
      have : (0 : Int) ≤ ((W / 2 : Nat) : Int) := Int.natCast_nonneg _
      omega
    obtain ⟨j, hadv, hjt⟩ :=
      advanceLower_some data (m.1 - ((W / 2 : Nat) : Int)) li t htlen hli hstop
    obtain ⟨hjlen, hge, hmid⟩ :=
      advanceLower_spec data (m.1 - ((W / 2 : Nat) : Int)) li j hadv
    have hlow : ∀ k (hk : k < data.length), k < j →
        (data.get ⟨k, hk⟩).1 < m.1 - ((W / 2 : Nat) : Int) := by
      intro k hk hkj
      rcases lt_or_le k li with hkli | hlik
      · exact hinv k hk hkli htlen
      · exact hmid k hk hlik hkj
    have hwl := windowList_eq_windowObs data W m.1 hs j (by omega) hlow hge
    have hsorted_get : ∀ (i₁ i₂ : Nat) (h1 : i₁ < data.length)
        (h2 : i₂ < data.length), i₁ ≤ i₂ →
        (data.get ⟨i₁, h1⟩).1 ≤ (data.get ⟨i₂, h2⟩).1 := by
      intro i₁ i₂ h1 h2 hle
      rcases Nat.eq_or_lt_of_le hle with heq | hlt
      · subst heq; rfl
      · exact List.pairwise_iff_get.mp hs ⟨i₁, h1⟩ ⟨i₂, h2⟩ hlt
    have hrec := ih (t + 1) j (by omega) (by omega) ?_
    · rw [hdrop]
      simp only [smoothLoop, hadv]
      rw [collectWindow_eq_fold, hwl, hrec]
      simp only [List.map_cons]
      rfl
    · intro k hk hkj ht1
      have h1 := hlow k hk hkj
      have h2 : m.1 ≤ (data.get ⟨t + 1, ht1⟩).1 :=
        hsorted_get t (t + 1) htlen ht1 (by omega)
      omega

/-- C3: for every date-sorted, nonempty input series, the smoother's output
has exactly the input's length and its dates are the input dates in input
order: no observation is dropped or reordered. -/
theorem output_dates_match_input (data : List Measurement) (W : Nat)
    (hne : data ≠ []) (hs : DateSorted data) :
    ∃ amounts : List (Option ℚ),
      calc_temp_series data W = some (data.map Prod.fst, amounts) ∧
      amounts.length = data.length := by
  obtain ⟨base, hbase⟩ : ∃ b, (data.map Prod.fst).min? = some b := by
    cases hmin : (data.map Prod.fst).min? with
    | none =>
      rw [List.min?_eq_none_iff] at hmin
      exact absurd (List.map_eq_nil_iff.mp hmin) hne
    | some b => exact ⟨b, rfl⟩
  have hrun := smoothLoop_spec data hs base W data.length 0 0 (by omega)
    (by omega) (by intro k hk hklt; omega)
  rw [List.drop_zero] at hrun
  refine ⟨data.map fun m =>
    (windowRegression data base W m.1).predict (((m.1 - base : Int)) : ℚ), ?_, ?_⟩
  · unfold calc_temp_series
    rw [hbase]
    exact hrun
  · rw [List.length_map]

/-- Witness for C3 on the concrete sorted series
[(0, 1), (1, 3), (2, 5)] with window width 2. -/
theorem output_dates_match_input_witness :
    (([((0 : Int), (1 : ℚ)), (1, 3), (2, 5)] : List Measurement) ≠ [] ∧
        DateSorted [((0 : Int), (1 : ℚ)), (1, 3), (2, 5)]) ∧
      ∃ amounts : List (Option ℚ),
        calc_temp_series [((0 : Int), (1 : ℚ)), (1, 3), (2, 5)] 2 =
          some (([((0 : Int), (1 : ℚ)), (1, 3), (2, 5)] :
            List Measurement).map Prod.fst, amounts) ∧
        amounts.length =
          ([((0 : Int), (1 : ℚ)), (1, 3), (2, 5)] : List Measurement).length :=
  ⟨⟨by decide, by unfold DateSorted; decide⟩,
    output_dates_match_input _ 2 (by decide) (by unfold DateSorted; decide)⟩

/-- C10: for every nonempty, date-sorted input series and every window width,
the unguarded cursor-advance loop never indexes past the end of the vector:
the whole smoothing pass completes without the out-of-bounds panic modelled
by `none`. -/
theorem cursor_never_out_of_bounds (data : List Measurement) (W : Nat)
    (hne : data ≠ []) (hs : DateSorted data) :
    (calc_temp_series data W).isSome = true := by
  obtain ⟨base, hbase⟩ : ∃ b, (data.map Prod.fst).min? = some b := by
    cases hmin : (data.map Prod.fst).min? with
    | none =>
      rw [List.min?_eq_none_iff] at hmin
      exact absurd (List.map_eq_nil_iff.mp hmin) hne
    | some b => exact ⟨b, rfl⟩
  have hrun := smoothLoop_spec data hs base W data.length 0 0 (by omega)
    (by omega) (by intro k hk hklt; omega)
  rw [List.drop_zero] at hrun
  unfold calc_temp_series
  rw [hbase]
  show (smoothLoop data base W data 0).isSome = true
  rw [hrun]
  rfl

/-- Witness for C10 on the concrete sorted series [(0, 1), (1, 3), (4, 5)]
(note the calendar gap) with window width 3. -/
theorem cursor_never_out_of_bounds_witness :
    (([((0 : Int), (1 : ℚ)), (1, 3), (4, 5)] : List Measurement) ≠ [] ∧
        DateSorted [((0 : Int), (1 : ℚ)), (1, 3), (4, 5)]) ∧
      (calc_temp_series [((0 : Int), (1 : ℚ)), (1, 3), (4, 5)] 3).isSome = true :=
  ⟨⟨by decide, by unfold DateSorted; decide⟩,
    cursor_never_out_of_bounds _ 3 (by decide) (by unfold DateSorted; decide)⟩

lemma cursorSteps_chain (data : List Measurement) (W : Nat) :
    ∀ ms : List Measurement, ∀ li tr, cursorSteps data W ms li = some tr →
      List.Chain' (· ≤ ·) (li :: tr) := by
  intro ms
  induction ms with
  | nil =>
    intro li tr h
    simp only [cursorSteps] at h
    cases h
    simp
  | cons m ms ih =>
    intro li tr h
    cases hadv : advanceLower data (m.1 - ((W / 2 : Nat) : Int)) li with
    | none =>
      simp only [cursorSteps, hadv] at h
      cases h
    | some j =>
      simp only [cursorSteps, hadv] at h
      cases htr : cursorSteps data W ms j with
      | none =>
        rw [htr, Option.map_none'] at h
        cases h
      | some tr' =>
        rw [htr, Option.map_some'] at h
        cases h
        have hj := advanceLower_ge data _ li j hadv
        exact List.chain'_cons.mpr ⟨hj, ih j tr' htr⟩

/-- C6: the `lower_init` cursor values recorded by the sliding-window pass,
one per processed observation, are monotonically non-decreasing (starting
from the initial cursor 0). -/
theorem lower_cursor_monotone (data : List Measurement) (W : Nat)
    (tr : List Nat) (h : cursorSteps data W data 0 = some tr) :
    List.Chain' (· ≤ ·) tr :=
  (cursorSteps_chain data W data 0 tr h).tail

/-- Witness for C6 on the concrete series [(0, 1), (3, 3), (4, 5)] with
window width 2. -/
theorem lower_cursor_monotone_witness :
    cursorSteps [((0 : Int), (1 : ℚ)), (3, 3), (4, 5)] 2
        [((0 : Int), (1 : ℚ)), (3, 3), (4, 5)] 0 = some [0, 1, 1] ∧
      List.Chain' (· ≤ ·) [0, 1, 1] := by
  have h : cursorSteps [((0 : Int), (1 : ℚ)), (3, 3), (4, 5)] 2
      [((0 : Int), (1 : ℚ)), (3, 3), (4, 5)] 0 = some [0, 1, 1] := by
    simp [cursorSteps, advanceLower]
  exact ⟨h, lower_cursor_monotone _ 2 _ h⟩

lemma length_filter_fst (pr : Int → Bool) :
    ∀ data : List Measurement,
      (data.filter fun p => pr p.1).length =
        ((data.map Prod.fst).filter pr).length := by
  intro data
  induction data with
  | nil => rfl
  | cons a t ih =>
    simp only [List.map_cons, List.filter_cons]
    by_cases h : pr a.1 = true
    · rw [if_pos h, if_pos h]
      simp only [List.length_cons, ih]
    · rw [if_neg h, if_neg h]
      exact ih

lemma range_filter_interval_length (L U : Nat) :
    ∀ n : Nat, ((List.range n).filter
        (fun i => decide (L ≤ i) && decide (i ≤ U))).length =
      min n (U + 1) - min n L := by
  intro n
  induction n with
  | zero => simp
  | succ n ih =>
    rw [List.range_succ, List.filter_append, List.length_append, ih]
    simp only [List.filter_cons, List.filter_nil]
    by_cases hcond : (decide (L ≤ n) && decide (n ≤ U)) = true
    · rw [if_pos hcond]
      have hp : L ≤ n ∧ n ≤ U := by simpa using hcond
      simp only [List.length_cons, List.length_nil]
      omega
    · rw [if_neg hcond]
      have hp : ¬(L ≤ n ∧ n ≤ U) := by simpa using hcond
      simp only [List.length_nil]
      omega

lemma filter_map_length (f : Nat → Int) (p : Int → Bool) :
    ∀ l : List Nat, ((l.map f).filter p).length =
      (l.filter (fun i => p (f i))).length := by
  intro l
  induction l with
  | nil => rfl
  | cons a t ih =>
    simp only [List.map_cons, List.filter_cons]
    by_cases h : p (f a) = true
    · rw [if_pos h, if_pos h]
      simp only [List.length_cons, ih]
    · rw [if_neg h, if_neg h]
      exact ih

lemma filter_interval_dense_length (a lb ub : Int) (n : Nat)
    (hlo : a ≤ lb) (hub : ub ≤ a + (n : Int) - 1) (hlbub : lb ≤ ub) :
    (((List.range n).map (fun i : Nat => (a + (i : Int) : Int))).filter
        (fun x => decide (lb ≤ x) && decide (x ≤ ub))).length
      = (ub - lb + 1).toNat := by
  rw [filter_map_length]
  have hcongr : ∀ i ∈ List.range n,
      (fun i : Nat =>
        (fun x => decide (lb ≤ x) && decide (x ≤ ub)) (a + (i : Int))) i =
      (fun i : Nat => decide ((lb - a).toNat ≤ i) &&
        decide (i ≤ (ub - a).toNat)) i := by
    intro i hi
    simp only []
    congr 1
    · exact decide_eq_decide.mpr (by omega)
    · exact decide_eq_decide.mpr (by omega)
  rw [List.filter_congr hcongr, range_filter_interval_length]
  omega

/-- C2: for a date-sorted series, the regression for each target date `d` is
fed exactly the observations of the calendar window
`[d - floor(W/2), d + floor((W-1)/2)]` (the smoothed output is the
prediction of the regression over that window), and for a dense (gap-free)
daily series any target whose whole window lies inside the date span feeds
exactly `W` observations to its regression. -/
theorem window_is_calendar_interval (data : List Measurement) (W : Nat)
    (hW : 1 ≤ W) (hs : DateSorted data) :
    (∀ base, (data.map Prod.fst).min? = some base →
      calc_temp_series data W =
        some (data.map Prod.fst,
          data.map fun m =>
            (windowRegression data base W m.1).predict
              (((m.1 - base : Int)) : ℚ))) ∧
    (∀ (a : Int) (n : Nat),
      data.map Prod.fst = (List.range n).map (fun i : Nat => (a + (i : Int) : Int)) →
      ∀ m ∈ data, a ≤ m.1 - ((W / 2 : Nat) : Int) →
        m.1 + (((W - 1) / 2 : Nat) : Int) ≤ a + (n : Int) - 1 →
        (windowObs data W m.1).length = W) := by
  constructor
  · intro base hbase
    have hrun := smoothLoop_spec data hs base W data.length 0 0 (by omega)
      (by omega) (by intro k hk hklt; omega)
    rw [List.drop_zero] at hrun
    unfold calc_temp_series
    rw [hbase]
    exact hrun
  · intro a n hdense m hm hlo hhi
    have hlbub : m.1 - ((W / 2 : Nat) : Int) ≤ m.1 + (((W - 1) / 2 : Nat) : Int) := by
      have h1 : (0 : Int) ≤ ((W / 2 : Nat) : Int) := Int.natCast_nonneg _
      have h2 : (0 : Int) ≤ (((W - 1) / 2 : Nat) : Int) := Int.natCast_nonneg _
      omega
    have hlen : (windowObs data W m.1).length =
        (((List.range n).map (fun i : Nat => (a + (i : Int) : Int))).filter
          (fun x => decide (m.1 - ((W / 2 : Nat) : Int) ≤ x) &&
            decide (x ≤ m.1 + (((W - 1) / 2 : Nat) : Int)))).length := by
      unfold windowObs
      rw [← hdense]
      exact length_filter_fst
        (fun x => decide (m.1 - ((W / 2 : Nat) : Int) ≤ x) &&
          decide (x ≤ m.1 + (((W - 1) / 2 : Nat) : Int))) data
    rw [hlen, filter_interval_dense_length a _ _ n hlo hhi hlbub]
    have hW2 : (((W - 1) / 2 : Nat) : Int) + ((W / 2 : Nat) : Int) + 1 = (W : Int) := by
      omega
    omega

/-- Witness for C2 on the dense series with dates 10..14 (amounts i²) and
window width 3, checked at the middle measurement (12, 4). -/
theorem window_is_calendar_interval_witness :
    (1 ≤ 3 ∧ DateSorted denseSeries5) ∧
    ((∀ base, (denseSeries5.map Prod.fst).min? = some base →
      calc_temp_series denseSeries5 3 =
        some (denseSeries5.map Prod.fst,
          denseSeries5.map fun m =>
            (windowRegression denseSeries5 base 3 m.1).predict
              (((m.1 - base : Int)) : ℚ))) ∧
    (∀ (a : Int) (n : Nat),
      denseSeries5.map Prod.fst = (List.range n).map (fun i : Nat => (a + (i : Int) : Int)) →
      ∀ m ∈ denseSeries5, a ≤ m.1 - ((3 / 2 : Nat) : Int) →
        m.1 + (((3 - 1) / 2 : Nat) : Int) ≤ a + (n : Int) - 1 →
        (windowObs denseSeries5 3 m.1).length = 3)) :=
  ⟨⟨by omega, by unfold DateSorted denseSeries5; decide⟩,
    window_is_calendar_interval denseSeries5 3 (by omega)
      (by unfold DateSorted denseSeries5; decide)⟩

/-- C9: `date_range(start, end)` is exactly the half-open calendar interval
`[start, end)`: membership is `start ≤ d < end`, consecutive entries differ
by one day (strictly increasing, no gaps), and on the day numbers of
2024-01-01 and 2024-01-04 (epoch days 19723 and 19726) it returns the three
days 2024-01-01, 2024-01-02, 2024-01-03. -/
theorem date_range_half_open :
    (∀ s e d : Int, d ∈ date_range s e ↔ s ≤ d ∧ d < e) ∧
    (∀ s e : Int, List.Chain' (fun a b => b = a + 1) (date_range s e)) ∧
    date_range 19723 19726 = [19723, 19724, 19725] := by
  refine ⟨?_, ?_, ?_⟩
  · intro s e d
    unfold date_range
    simp only [List.mem_map, List.mem_range]
    constructor
    · rintro ⟨i, hi, rfl⟩
      omega
    · rintro ⟨h1, h2⟩
      exact ⟨(d - s).toNat, by omega, by omega⟩
  · intro s e
    unfold date_range
    rw [List.chain'_iff_get]
    intro i hi
    simp only [List.get_eq_getElem, List.getElem_map, List.getElem_range]
    push_cast
    ring
  · decide

/-- Witness for C9 (instantiating the universally quantified parts at the
concrete range [5, 8)). -/
theorem date_range_half_open_witness :
    ((6 : Int) ∈ date_range 5 8 ↔ (5 : Int) ≤ 6 ∧ (6 : Int) < 8) ∧
    List.Chain' (fun a b => b = a + 1) (date_range 5 8) :=
  ⟨date_range_half_open.1 5 8 6, (date_range_half_open.2.1) 5 8⟩

/-- C4: for a strictly past date not previously fetched, calling `get_temp`
twice on the same `TempDataManager` succeeds both times with identical
results, the second call leaves the state untouched (it is served entirely
from the cache), and the provider's `get_history` runs at most once for that
date across both calls. -/
theorem get_temp_cached_at_most_once (today date : Int)
    (history : Int → Option Temp) (mgr : TempDataManager)
    (hpast : date < today) (hfresh : date ∉ mgr.fetchLog) :
    ∃ r mgr1, get_temp today history mgr date = Except.ok (r, mgr1) ∧
      get_temp today history mgr1 date = Except.ok (r, mgr1) ∧
      mgr1.fetchLog.count date ≤ 1 := by
  by_cases hhit : (mgr.cache.lookup date).isSome
  · refine ⟨(mgr.cache.lookup date).getD none, mgr, ?_, ?_, ?_⟩
    · unfold get_temp
      rw [if_pos hhit]
    · unfold get_temp
      rw [if_pos hhit]
    · have : mgr.fetchLog.count date = 0 := List.count_eq_zero.mpr hfresh
      omega
  · have hguard : get_history_guarded today history date =
        Except.ok (history date) := by
      unfold get_history_guarded
      rw [if_neg (by omega), if_neg (by omega)]
    set mgr1 : TempDataManager :=
      { cache := (date, history date) :: mgr.cache,
        fetchLog := date :: mgr.fetchLog } with hmgr1
    have hlook : mgr1.cache.lookup date = some (history date) := by
      simp [hmgr1, List.lookup]
    refine ⟨history date, mgr1, ?_, ?_, ?_⟩
    · unfold get_temp
      rw [if_neg hhit, hguard]
      show Except.ok ((mgr1.cache.lookup date).getD none, mgr1) =
        Except.ok (history date, mgr1)
      rw [hlook]
      rfl
    · unfold get_temp
      rw [if_pos (by rw [hlook]; rfl), hlook]
      rfl
    · have h0 : mgr.fetchLog.count date = 0 := List.count_eq_zero.mpr hfresh
      show (date :: mgr.fetchLog).count date ≤ 1
      rw [List.count_cons_self, h0]

/-- Witness for C4: today = 100, date = 5, empty manager, a provider that
always answers with Temp 1/2/3. -/
theorem get_temp_cached_at_most_once_witness :
    ((5 : Int) < 100 ∧
      (5 : Int) ∉ (TempDataManager.mk [] []).fetchLog) ∧
    ∃ r mgr1,
      get_temp 100 (fun _ => some ⟨1, 2, 3⟩) (TempDataManager.mk [] []) 5 =
        Except.ok (r, mgr1) ∧
      get_temp 100 (fun _ => some ⟨1, 2, 3⟩) mgr1 5 = Except.ok (r, mgr1) ∧
      mgr1.fetchLog.count 5 ≤ 1 :=
  ⟨⟨by decide, by decide⟩,
    get_temp_cached_at_most_once 100 5 (fun _ => some ⟨1, 2, 3⟩)
      (TempDataManager.mk [] []) (by decide) (by decide)⟩

/-- C7: requesting history for today or a future date is a fatal
precondition violation in both provider clients: the call aborts with a
panic (an `Except.error`, never an `ok` "no data" value), and the client
state is unchanged — no cache read, no cache write, and no live API call is
performed for that date. -/
theorem get_history_fatal_for_non_past {α : Type} (today : Int)
    (api : Int → α) (st : ClientState α) (date : Int) (h : today ≤ date) :
    (∃ msg, (get_history_fetch today api st date).1 = Except.error msg) ∧
    (get_history_fetch today api st date).2 = st := by
  unfold get_history_fetch
  rcases eq_or_lt_of_le h with heq | hlt
  · rw [if_pos (by omega)]
    exact ⟨⟨_, rfl⟩, rfl⟩
  · rw [if_neg (by omega), if_pos (by omega)]
    exact ⟨⟨_, rfl⟩, rfl⟩

/-- Witness for C7: today = 50 and the future date 51, on a client whose
cache already holds an entry. -/
theorem get_history_fatal_for_non_past_witness :
    ((50 : Int) ≤ 51) ∧
    ((∃ msg, (get_history_fetch 50 (fun _ => (0 : Int))
        (ClientState.mk [(3, 7)] [] [] []) 51).1 = Except.error msg) ∧
      (get_history_fetch 50 (fun _ => (0 : Int))
        (ClientState.mk [(3, 7)] [] [] []) 51).2 =
        ClientState.mk [(3, 7)] [] [] []) :=
  ⟨by decide,
    get_history_fatal_for_non_past 50 (fun _ => (0 : Int))
      (ClientState.mk [(3, 7)] [] [] []) 51 (by decide)⟩

lemma combine_fold_props (rest : List Temp) : ∀ t : Temp,
    ((rest.foldl (fun acc u =>
        { min := min acc.min u.min, mean := acc.mean + u.mean,
          max := max acc.max u.max }) t).min = t.min ∨
      (rest.foldl (fun acc u =>
        { min := min acc.min u.min, mean := acc.mean + u.mean,
          max := max acc.max u.max }) t).min ∈ rest.map Temp.min) ∧
    (rest.foldl (fun acc u =>
        { min := min acc.min u.min, mean := acc.mean + u.mean,
          max := max acc.max u.max }) t).min ≤ t.min ∧
    (∀ u ∈ rest, (rest.foldl (fun acc u =>
        { min := min acc.min u.min, mean := acc.mean + u.mean,
          max := max acc.max u.max }) t).min ≤ u.min) ∧
    ((rest.foldl (fun acc u =>
        { min := min acc.min u.min, mean := acc.mean + u.mean,
          max := max acc.max u.max }) t).max = t.max ∨
      (rest.foldl (fun acc u =>
        { min := min acc.min u.min, mean := acc.mean + u.mean,
          max := max acc.max u.max }) t).max ∈ rest.map Temp.max) ∧
    t.max ≤ (rest.foldl (fun acc u =>
        { min := min acc.min u.min, mean := acc.mean + u.mean,
          max := max acc.max u.max }) t).max ∧
    (∀ u ∈ rest, u.max ≤ (rest.foldl (fun acc u =>
        { min := min acc.min u.min, mean := acc.mean + u.mean,
          max := max acc.max u.max }) t).max) ∧
    (rest.foldl (fun acc u =>
        { min := min acc.min u.min, mean := acc.mean + u.mean,
          max := max acc.max u.max }) t).mean = t.mean + (rest.map Temp.mean).sum := by
  induction rest with
  | nil =>
    intro t
    simp
  | cons u us ih =>
    intro t
    simp only [List.foldl_cons, List.map_cons, List.sum_cons]
    obtain ⟨hmem, hle, hall, hxmem, hxle, hxall, hmean⟩ :=
      ih { min := min t.min u.min, mean := t.mean + u.mean,
           max := max t.max u.max }
    dsimp only at hmem hle hall hxmem hxle hxall hmean
    refine ⟨?_, ?_, ?_, ?_, ?_, ?_, ?_⟩
    · rcases hmem with heq | hmem'
      · rcases min_choice t.min u.min with hc | hc
        · exact Or.inl (heq.trans hc)
        · exact Or.inr (by rw [heq, hc]; exact List.mem_cons_self _ _)
      · exact Or.inr (List.mem_cons_of_mem _ hmem')
    · exact le_trans hle (min_le_left _ _)
    · intro v hv
      rcases List.mem_cons.mp hv with rfl | hv'
      · exact le_trans hle (min_le_right _ _)
      · exact hall v hv'
    · rcases hxmem with heq | hxmem'
      · rcases max_choice t.max u.max with hc | hc
        · exact Or.inl (heq.trans hc)
        · exact Or.inr (by rw [heq, hc]; exact List.mem_cons_self _ _)
      · exact Or.inr (List.mem_cons_of_mem _ hxmem')
    · exact le_trans (le_max_left _ _) hxle
    · intro v hv
      rcases List.mem_cons.mp hv with rfl | hv'
      · exact le_trans (le_max_right _ _) hxle
      · exact hxall v hv'
    · rw [hmean]
      ring

/-- C8: combining the `Temp` values returned by several providers for one
date (modelled from the spec, since the source never holds more than one
provider) yields canonical min = minimum of all provider mins, canonical
max = maximum of all provider maxes, canonical mean = unweighted arithmetic
mean of the per-provider means; in particular {10,15,20} and {12,17,22}
combine to {10,16,22}. -/
theorem combine_is_min_mean_max :
    (∀ (t : Temp) (rest : List Temp),
      ∃ c, combine_temps (t :: rest) = some c ∧
        (c.min ∈ (t :: rest).map Temp.min ∧
          ∀ u ∈ t :: rest, c.min ≤ u.min) ∧
        (c.max ∈ (t :: rest).map Temp.max ∧
          ∀ u ∈ t :: rest, u.max ≤ c.max) ∧
        c.mean = ((t :: rest).map Temp.mean).sum / ((t :: rest).length : ℚ)) ∧
    combine_temps [⟨10, 15, 20⟩, ⟨12, 17, 22⟩] = some ⟨10, 16, 22⟩ := by
  refine ⟨?_, by
    simp only [combine_temps, List.foldl_cons, List.foldl_nil,
      List.length_cons, List.length_nil]
    norm_num [min_def, max_def]⟩
  · intro t rest
    obtain ⟨hmem, hle, hall, hxmem, hxle, hxall, hmean⟩ := combine_fold_props rest t
    refine ⟨_, rfl, ⟨?_, ?_⟩, ⟨?_, ?_⟩, ?_⟩
    · dsimp only [combine_temps]
      rcases hmem with heq | hmem'
      · rw [heq]
        exact List.mem_cons_self _ _
      · exact List.mem_cons_of_mem _ hmem'
    · intro v hv
      dsimp only [combine_temps]
      rcases List.mem_cons.mp hv with rfl | hv'
      · exact hle
      · exact hall v hv'
    · dsimp only [combine_temps]
      rcases hxmem with heq | hxmem'
      · rw [heq]
        exact List.mem_cons_self _ _
      · exact List.mem_cons_of_mem _ hxmem'
    · intro v hv
      dsimp only [combine_temps]
      rcases List.mem_cons.mp hv with rfl | hv'
      · exact hxle
      · exact hxall v hv'
    · dsimp only [combine_temps]
      rw [hmean]
      simp only [List.map_cons, List.sum_cons, List.length_cons]

end UtilityStats
